import Mathlib

/-!
A shallow embedding of `src/csp.py` (SleipRecx/nqueens_csp): a finite-domain
CSP solver combining AC-3 arc-consistency propagation with backtracking
search under an MRV heuristic.

Modelling conventions:
* Python values that occur as variable names, domain values and queue
  entries are modelled by the inductive type `PyVal` (strings, ints,
  bools and pairs); Python truthiness is `pyTruthy`.
* Python dicts are modelled as insertion-ordered association lists with
  first-match lookup (`dlookup`) and first-match update (`dset`); a dict
  never holds two equal keys, which is recorded by `KeysOk` where a proof
  needs it.  Equality of keys and of values is structural equality, which
  agrees with Python `==` on every value the program builds (the numeric
  aliasing `True == 1` is never exercised).
* In-place list mutation (`list.remove` inside iteration) is modelled by
  explicit index-passing recursion (`reviseLoop`), reproducing the
  CPython iteration protocol: the loop index advances after each body
  run even when the body removed the current element.
* The functions `inference` and `backtrack` return the mutated
  assignment next to the Python return value, and `backtrack` returns
  the increments its subtree contributes to the instance counters
  `b_counter` and `f_counter`.
* Where Python would raise `KeyError` on a missing dict key, lookups
  default to the empty list (`dlookupD`); every instance studied below
  has all required keys present, so the two semantics agree on them.
-/

namespace Csp

/-- Python values used by the program: variable names (strings in every
builder, but any value can be a dict key), domain values, and tuples. -/
inductive PyVal where
  | str : String → PyVal
  | int : Int → PyVal
  | bool : Bool → PyVal
  | tup : PyVal → PyVal → PyVal
deriving DecidableEq

/-- Python truthiness for the values of `PyVal`: `""`, `0` and `False`
are falsy, tuples of two elements are always truthy. -/
def pyTruthy : PyVal → Bool
  | .str s => !(s == "")
  | .int n => !(n == 0)
  | .bool b => b
  | .tup _ _ => true

/-- First-match lookup in an association list, modelling `d[k]` /
`k in d` on a Python dict. -/
def dlookup {α : Type} : List (PyVal × α) → PyVal → Option α
  | [], _ => none
  | (k', v) :: rest, k => if k' = k then some v else dlookup rest k

/-- Lookup with a default, used where the Python code is only ever run
with the key present. -/
def dlookupD {α : Type} (d : List (PyVal × α)) (k : PyVal) (dflt : α) : α :=
  (dlookup d k).getD dflt

/-- `d[k] = v` on a Python dict: replace the value of the first binding
with key `k` (keeping the stored key object), else append a new binding. -/
def dset {α : Type} : List (PyVal × α) → PyVal → α → List (PyVal × α)
  | [], k, v => [(k, v)]
  | (k', v') :: rest, k, v =>
      if k' = k then (k', v) :: rest else (k', v') :: dset rest k v

/-- A Python dict never holds two equal keys. -/
def KeysOk {α : Type} (d : List (PyVal × α)) : Prop :=
  (d.map Prod.fst).Nodup

instance keysOkDecidable {α : Type} (d : List (PyVal × α)) : Decidable (KeysOk d) :=
  List.nodupDecidable (d.map Prod.fst)

theorem dlookup_dset_self {α : Type} (d : List (PyVal × α)) (k : PyVal) (v : α) :
    dlookup (dset d k v) k = some v := by
  induction d with
  | nil => simp [dset, dlookup]
  | cons p rest ih =>
      obtain ⟨k', v'⟩ := p
      by_cases h : k' = k <;> simp [dset, dlookup, h, ih]

theorem dlookup_dset_ne {α : Type} (d : List (PyVal × α)) (k k' : PyVal) (v : α)
    (h : k ≠ k') : dlookup (dset d k v) k' = dlookup d k' := by
  induction d with
  | nil => simp [dset, dlookup, h]
  | cons p rest ih =>
      obtain ⟨k₀, v₀⟩ := p
      by_cases h₀ : k₀ = k
      · subst h₀
        simp [dset, dlookup, h]
      · simp [dset, dlookup, h₀, ih]

theorem dset_map_fst_of_lookup {α : Type} (d : List (PyVal × α)) (k : PyVal) (v : α)
    (h : (dlookup d k).isSome) :
    (dset d k v).map Prod.fst = d.map Prod.fst := by
  induction d with
  | nil => simp [dlookup] at h
  | cons p rest ih =>
      obtain ⟨k₀, v₀⟩ := p
      by_cases h₀ : k₀ = k
      · simp [dset, h₀]
      · simp only [dlookup, h₀, if_neg h₀] at h
        simp [dset, h₀, ih h]

theorem keysOk_dset_of_lookup {α : Type} (d : List (PyVal × α)) (k : PyVal) (v : α)
    (hd : KeysOk d) (h : (dlookup d k).isSome) : KeysOk (dset d k v) := by
  unfold KeysOk
  rw [dset_map_fst_of_lookup d k v h]
  exact hd

theorem dlookup_eq_of_mem_keysOk {α : Type} {d : List (PyVal × α)} {k : PyVal} {v : α}
    (hmem : (k, v) ∈ d) (hd : KeysOk d) : dlookup d k = some v := by
  induction d with
  | nil => simp at hmem
  | cons p rest ih =>
      obtain ⟨k₀, v₀⟩ := p
      rcases List.mem_cons.mp hmem with h | h
      · obtain ⟨h₁, h₂⟩ := Prod.mk.injEq .. ▸ h
        simp [dlookup, h₁.symm, h₂]
      · by_cases h₀ : k₀ = k
        · exfalso
          subst h₀
          have hk : k₀ ∈ rest.map Prod.fst := List.mem_map_of_mem Prod.fst h
          exact (List.nodup_cons.mp hd).1 hk
        · have hrest : KeysOk rest := (List.nodup_cons.mp hd).2
          simp [dlookup, h₀, ih h hrest]

/-- A list of permitted value pairs, the tail of `self.constraints[i][j]`. -/
abbrev ConPairs := List (PyVal × PyVal)

/-- `self.constraints`: a dict from variable to a dict from neighbour
variable to the list of permitted value pairs. -/
abbrev ConstraintMap := List (PyVal × List (PyVal × ConPairs))

/-- An assignment: the (copied) domain store, a dict from variable to
its list of remaining legal values. -/
abbrev Assignment := List (PyVal × List PyVal)

/-- The `CSP` class state built by the problem builders.  The counters
`b_counter` / `f_counter` start at 0 and are returned functionally by
`backtrack` below. -/
structure CSP where
  vars : List PyVal := []  -- `self.variables` (that name is a reserved word in Lean)
  domains : Assignment := []
  constraints : ConstraintMap := []
deriving DecidableEq

/-- `CSP.add_variable` (src/csp.py lines 25-31). -/
def add_variable (csp : CSP) (name : PyVal) (domain : List PyVal) : CSP :=
  { csp with
    vars := csp.vars ++ [name]
    domains := dset csp.domains name domain
    constraints := dset csp.constraints name [] }

/-- `CSP.get_all_possible_pairs` (lines 33-38): the Cartesian product in
`itertools.product` order. -/
def get_all_possible_pairs (a b : List PyVal) : ConPairs :=
  a.flatMap (fun x => b.map (fun y => (x, y)))

/-- `CSP.get_all_arcs` (lines 40-45): `[(i, j) for i in constraints for
j in constraints[i]]`, in dict iteration order. -/
def get_all_arcs (cs : ConstraintMap) : List (PyVal × PyVal) :=
  cs.flatMap (fun p => p.2.map (fun q => (p.1, q.1)))

/-- `CSP.get_all_neighboring_arcs` (lines 47-51): `[(i, var) for i in
constraints[var]]`. -/
def get_all_neighboring_arcs (cs : ConstraintMap) (var : PyVal) : List (PyVal × PyVal) :=
  (dlookupD cs var []).map (fun q => (q.1, var))

/-- `CSP.add_constraint_one_way` (lines 53-68): install the full
filtered product when the pair `(i, j)` is fresh, otherwise re-filter
the already stored pair list. -/
def add_constraint_one_way (csp : CSP) (i j : PyVal)
    (filter_function : PyVal → PyVal → Bool) : CSP :=
  let inner0 := dlookupD csp.constraints i []
  let inner1 :=
    if (dlookup inner0 j).isSome then inner0
    else dset inner0 j
      (get_all_possible_pairs (dlookupD csp.domains i []) (dlookupD csp.domains j []))
  let inner2 := dset inner1 j
    ((dlookupD inner1 j []).filter (fun vp => filter_function vp.1 vp.2))
  { csp with constraints := dset csp.constraints i inner2 }

/-- `list.remove(x)` on a Python list: delete the first element equal
to `x` (no-op on absence, which never occurs in the program). -/
def pyRemove : List PyVal → PyVal → List PyVal
  | [], _ => []
  | y :: rest, x => if y = x then rest else y :: pyRemove rest x

theorem pyRemove_length_le (lst : List PyVal) (x : PyVal) :
    (pyRemove lst x).length ≤ lst.length := by
  induction lst with
  | nil => simp [pyRemove]
  | cons y rest ih =>
      by_cases h : y = x
      · simp [pyRemove, h]
      · simp only [pyRemove, if_neg h, List.length_cons]
        omega

theorem pyRemove_length_lt {lst : List PyVal} {x : PyVal} (hx : x ∈ lst) :
    (pyRemove lst x).length < lst.length := by
  induction lst with
  | nil => simp at hx
  | cons y rest ih =>
      by_cases h : y = x
      · simp [pyRemove, h]
      · rcases List.mem_cons.mp hx with h' | h'
        · exact absurd h'.symm h
        · simp only [pyRemove, if_neg h, List.length_cons]
          have := ih h'
          omega

theorem pyRemove_sublist (lst : List PyVal) (x : PyVal) :
    (pyRemove lst x).Sublist lst := by
  induction lst with
  | nil => simp [pyRemove]
  | cons y rest ih =>
      by_cases h : y = x
      · simp [pyRemove, h]
      · simp only [pyRemove, if_neg h]
        exact ih.cons₂ y

/-- The inner loop of `CSP.revise` (lines 193-197): value `x` is kept
iff some `y` in the current domain of `j` makes `(x, y)` a permitted
pair of `constraints[i][j]`. -/
def supported (con : ConPairs) (domJ : List PyVal) (x : PyVal) : Bool :=
  domJ.any (fun y => con.contains (x, y))

/-- The `for x in assignment[i]` loop of `CSP.revise` (lines 192-200),
with CPython's in-place-removal iteration semantics: the loop index `k`
advances after every body run, so removing the element at position `k`
skips the element that slides into position `k`. -/
def reviseLoop (con : ConPairs) (domJ : List PyVal) :
    List PyVal → Nat → Bool → List PyVal × Bool
  | lst, k, revised =>
    if h : k < lst.length then
      let x := lst.get ⟨k, h⟩
      if supported con domJ x then
        reviseLoop con domJ lst (k + 1) revised
      else
        reviseLoop con domJ (pyRemove lst x) (k + 1) true
    else
      (lst, revised)
termination_by lst k => lst.length - k
decreasing_by
  · omega
  · have := pyRemove_length_le lst (lst.get ⟨k, h⟩)
    omega

/-- `CSP.revise` (lines 182-201).  Returns the updated assignment (the
in-place mutation of `assignment[i]`) with the `revised` flag. -/
def revise (cs : ConstraintMap) (a : Assignment) (i j : PyVal) : Assignment × Bool :=
  let con := dlookupD (dlookupD cs i []) j []
  let r := reviseLoop con (dlookupD a j []) (dlookupD a i []) 0 false
  (if r.2 then dset a i r.1 else a, r.2)

theorem reviseLoop_fst_sublist (con : ConPairs) (domJ : List PyVal)
    (lst : List PyVal) (k : Nat) (revised : Bool) :
    ((reviseLoop con domJ lst k revised).1).Sublist lst := by
  induction lst, k, revised using reviseLoop.induct con domJ with
  | case1 lst k revised h x hsup ih =>
      rw [reviseLoop]
      simp only [h, dite_true, hsup, if_true]
      exact ih
  | case2 lst k revised h x hsup ih =>
      rw [reviseLoop]
      simp only [h, dite_true, hsup, Bool.false_eq_true, if_false]
      exact ih.trans (pyRemove_sublist lst _)
  | case3 lst k revised h =>
      rw [reviseLoop]
      simp [h]

theorem reviseLoop_snd_of_true (con : ConPairs) (domJ : List PyVal)
    (lst : List PyVal) (k : Nat) (revised : Bool) :
    revised = true → (reviseLoop con domJ lst k revised).2 = true := by
  induction lst, k, revised using reviseLoop.induct con domJ with
  | case1 lst k revised h x hsup ih =>
      intro hr
      rw [reviseLoop]
      simp only [h, dite_true, hsup, if_true]
      exact ih hr
  | case2 lst k revised h x hsup ih =>
      intro hr
      rw [reviseLoop]
      simp only [h, dite_true, hsup, Bool.false_eq_true, if_false]
      exact ih rfl
  | case3 lst k revised h =>
      intro hr
      rw [reviseLoop]
      simp [h, hr]

theorem reviseLoop_length_lt_of_flag (con : ConPairs) (domJ : List PyVal)
    (lst : List PyVal) (k : Nat) (revised : Bool) :
    revised = false → (reviseLoop con domJ lst k revised).2 = true →
    ((reviseLoop con domJ lst k revised).1).length < lst.length := by
  induction lst, k, revised using reviseLoop.induct con domJ with
  | case1 lst k revised h x hsup ih =>
      intro hr hres
      rw [reviseLoop] at hres ⊢
      simp only [h, dite_true, hsup, if_true] at hres ⊢
      exact ih hr hres
  | case2 lst k revised h x hsup ih =>
      intro hr hres
      rw [reviseLoop]
      simp only [h, dite_true, hsup, Bool.false_eq_true, if_false]
      have hsub := reviseLoop_fst_sublist con domJ (pyRemove lst (lst.get ⟨k, h⟩)) (k + 1) true
      have h₁ := hsub.length_le
      have h₂ : (pyRemove lst (lst.get ⟨k, h⟩)).length < lst.length :=
        pyRemove_length_lt (List.get_mem lst k h)
      omega
  | case3 lst k revised h =>
      intro hr hres
      rw [reviseLoop] at hres
      simp [h] at hres
      rw [hr] at hres
      exact absurd hres (by simp)

theorem revise_snd_false_eq {cs : ConstraintMap} {a : Assignment} {i j : PyVal}
    (h : (revise cs a i j).2 = false) : (revise cs a i j).1 = a := by
  unfold revise at h ⊢
  simp only at h ⊢
  rw [h.symm]
  cases hres : (reviseLoop (dlookupD (dlookupD cs i []) j [])
      (dlookupD a j []) (dlookupD a i []) 0 false).2 <;> simp [hres] at h ⊢

/-- The total number of domain values held by an assignment. -/
def domSizes (a : Assignment) : Nat := (a.map (fun p => p.2.length)).sum

theorem domSizes_dset_lt {a : Assignment} {i : PyVal} {d v : List PyVal}
    (h : dlookup a i = some d) (hlen : v.length < d.length) :
    domSizes (dset a i v) < domSizes a := by
  induction a with
  | nil => simp [dlookup] at h
  | cons p rest ih =>
      obtain ⟨k₀, v₀⟩ := p
      by_cases h₀ : k₀ = i
      · simp only [dlookup, if_pos h₀, Option.some.injEq] at h
        subst h
        simp only [dset, if_pos h₀, domSizes, List.map_cons, List.sum_cons]
        omega
      · simp only [dlookup, if_neg h₀] at h
        have := ih h
        simp only [dset, if_neg h₀, domSizes, List.map_cons, List.sum_cons]
        simp only [domSizes] at this
        omega

theorem revise_domSizes_lt {cs : ConstraintMap} {a : Assignment} {i j : PyVal}
    (h : (revise cs a i j).2 = true) :
    domSizes (revise cs a i j).1 < domSizes a := by
  unfold revise at h ⊢
  simp only at h ⊢
  rw [h]
  set con := dlookupD (dlookupD cs i []) j [] with hcon
  set domJ := dlookupD a j [] with hdomJ
  set lst := dlookupD a i [] with hlst
  simp only [if_pos h]
  have hlt : ((reviseLoop con domJ lst 0 false).1).length < lst.length :=
    reviseLoop_length_lt_of_flag con domJ lst 0 false rfl h
  have hsome : dlookup a i = some lst := by
    cases hl : dlookup a i with
    | none =>
        exfalso
        have : lst = [] := by rw [hlst]; simp [dlookupD, hl]
        rw [this] at hlt
        simp at hlt
    | some d => rw [hlst]; simp [dlookupD, hl]
  exact domSizes_dset_lt hsome hlt

/-- `a'` is `a` after propagation steps: bindings are in the same order
under the same keys, every domain a sublist of what it was. -/
def Shrinks (a' a : Assignment) : Prop :=
  List.Forall₂ (fun p q => p.1 = q.1 ∧ p.2.Sublist q.2) a' a

theorem shrinks_refl (a : Assignment) : Shrinks a a := by
  induction a with
  | nil => exact List.Forall₂.nil
  | cons p rest ih => exact List.Forall₂.cons ⟨rfl, List.Sublist.refl _⟩ ih

theorem shrinks_trans {a₃ a₂ a₁ : Assignment}
    (h₂ : Shrinks a₃ a₂) (h₁ : Shrinks a₂ a₁) : Shrinks a₃ a₁ := by
  induction h₂ generalizing a₁ with
  | nil =>
      cases h₁
      exact List.Forall₂.nil
  | cons hpq hrest ih =>
      cases h₁ with
      | cons hqr hrest' =>
          exact List.Forall₂.cons ⟨hpq.1.trans hqr.1, hpq.2.trans hqr.2⟩ (ih hrest')

theorem shrinks_dset_of_lookup {a : Assignment} {i : PyVal} {d v : List PyVal}
    (h : dlookup a i = some d) (hv : v.Sublist d) : Shrinks (dset a i v) a := by
  induction a with
  | nil => simp [dlookup] at h
  | cons p rest ih =>
      obtain ⟨k₀, v₀⟩ := p
      by_cases h₀ : k₀ = i
      · simp only [dlookup, if_pos h₀, Option.some.injEq] at h
        subst h
        simp only [dset, if_pos h₀]
        exact List.Forall₂.cons ⟨rfl, hv⟩ (shrinks_refl rest)
      · simp only [dlookup, if_neg h₀] at h
        simp only [dset, if_neg h₀]
        exact List.Forall₂.cons ⟨rfl, List.Sublist.refl _⟩ (ih h)

theorem shrinks_lookupD {a' a : Assignment} (h : Shrinks a' a) (v : PyVal) :
    (dlookupD a' v []).Sublist (dlookupD a v []) := by
  induction h with
  | nil => simp [dlookupD, dlookup]
  | cons hpq hrest ih =>
      rename_i p q l₁ l₂
      obtain ⟨hk, hsub⟩ := hpq
      by_cases hv : p.1 = v
      · have : q.1 = v := hk ▸ hv
        obtain ⟨p₁, p₂⟩ := p
        obtain ⟨q₁, q₂⟩ := q
        simp only [dlookupD, dlookup] at *
        simp [hv, this, hsub]
      · have : q.1 ≠ v := hk ▸ hv
        obtain ⟨p₁, p₂⟩ := p
        obtain ⟨q₁, q₂⟩ := q
        simp only [dlookupD, dlookup] at *
        simp only [if_neg hv, if_neg this]
        exact ih

theorem shrinks_map_fst {a' a : Assignment} (h : Shrinks a' a) :
    a'.map Prod.fst = a.map Prod.fst := by
  induction h with
  | nil => rfl
  | cons hpq hrest ih => simp [hpq.1, ih]

theorem shrinks_keysOk {a' a : Assignment} (h : Shrinks a' a) (hk : KeysOk a) :
    KeysOk a' := by
  unfold KeysOk at hk ⊢
  rw [shrinks_map_fst h]
  exact hk

/-- The number of variables whose domain still has more than one value:
the measure the spec appeals to for termination of `backtrack`. -/
def countGT1 (a : Assignment) : Nat := a.countP (fun p => decide (p.2.length > 1))

theorem shrinks_countGT1_le {a' a : Assignment} (h : Shrinks a' a) :
    countGT1 a' ≤ countGT1 a := by
  induction h with
  | nil => simp [countGT1]
  | cons hpq hrest ih =>
      rename_i p q l₁ l₂
      have hlen := hpq.2.length_le
      simp only [countGT1, List.countP_cons] at ih ⊢
      have hif : (if decide (p.2.length > 1) = true then 1 else 0) ≤
          (if decide (q.2.length > 1) = true then 1 else 0) := by
        by_cases h₂ : q.2.length > 1
        · by_cases h₁ : p.2.length > 1 <;> simp [h₁, h₂]
        · have h₁ : ¬ p.2.length > 1 := by omega
          simp [h₁, h₂]
      omega

theorem revise_shrinks (cs : ConstraintMap) (a : Assignment) (i j : PyVal) :
    Shrinks (revise cs a i j).1 a := by
  cases hres : (revise cs a i j).2 with
  | false => rw [revise_snd_false_eq hres]; exact shrinks_refl a
  | true =>
      unfold revise at hres ⊢
      simp only at hres ⊢
      rw [hres]
      simp only [if_pos hres]
      set con := dlookupD (dlookupD cs i []) j [] with hcon
      set domJ := dlookupD a j [] with hdomJ
      set lst := dlookupD a i [] with hlst
      have hlt : ((reviseLoop con domJ lst 0 false).1).length < lst.length :=
        reviseLoop_length_lt_of_flag con domJ lst 0 false rfl hres
      have hsome : dlookup a i = some lst := by
        cases hl : dlookup a i with
        | none =>
            exfalso
            have : lst = [] := by rw [hlst]; simp [dlookupD, hl]
            rw [this] at hlt
            simp at hlt
        | some d => rw [hlst]; simp [dlookupD, hl]
      exact shrinks_dset_of_lookup hsome (reviseLoop_fst_sublist con domJ lst 0 false)

/-- The arcs appended at lines 175-178 of `CSP.inference` after `revise`
reported a change on `(i, j)`: every neighbouring arc `(k, i)` of `i`
passing the test `not neighbor == j`.  The test compares the 2-tuple
`neighbor` with the variable `j`, exactly as the Python `==` does. -/
def enqueueArcs (cs : ConstraintMap) (i j : PyVal) : List (PyVal × PyVal) :=
  (get_all_neighboring_arcs cs i).filter (fun nb => !(PyVal.tup nb.1 nb.2 == j))

/-- `CSP.inference` (lines 164-179), the AC-3 loop: pop the first arc,
revise, fail on an emptied domain, append the neighbour arcs otherwise.
Returns the mutated assignment together with the Python return value. -/
def inference (cs : ConstraintMap) (a : Assignment) (queue : List (PyVal × PyVal)) :
    Assignment × Bool :=
  match queue with
  | [] => (a, true)
  | (i, j) :: rest =>
    let a' := (revise cs a i j).1
    if hrev : (revise cs a i j).2 = true then
      if (dlookupD a' i []).length = 0 then (a', false)
      else inference cs a' (rest ++ enqueueArcs cs i j)
    else inference cs a' rest
termination_by (domSizes a, queue.length)
decreasing_by
  · exact Prod.Lex.left _ _ (revise_domSizes_lt hrev)
  · rw [revise_snd_false_eq (Bool.not_eq_true _ ▸ eq_false_of_ne_true hrev)]
    exact Prod.Lex.right _ (Nat.lt_succ_self _)

theorem inference_shrinks (cs : ConstraintMap) (a : Assignment)
    (queue : List (PyVal × PyVal)) : Shrinks (inference cs a queue).1 a := by
  induction a, queue using inference.induct cs with
  | case1 a =>
      rw [inference]
      exact shrinks_refl a
  | case2 a i j rest a' hrev hlen =>
      rw [inference]
      rw [dif_pos hrev, if_pos hlen]
      exact revise_shrinks cs a i j
  | case3 a i j rest a' hrev hlen ih =>
      rw [inference]
      rw [dif_pos hrev, if_neg hlen]
      exact shrinks_trans ih (revise_shrinks cs a i j)
  | case4 a i j rest a' hrev ih =>
      rw [inference]
      rw [dif_neg hrev]
      exact shrinks_trans ih (revise_shrinks cs a i j)

/-- The comparison `len(value) < minimum` with `minimum` initialised to
`float("inf")`, modelled as `none`. -/
def ltMin (n : Nat) (m : Option Nat) : Bool :=
  match m with
  | none => true
  | some v => n < v

/-- The scan loop of `CSP.select_minimum_remaining_variable` (lines
151-157): keep the first variable realising the minimum domain size
among domains larger than one. -/
def mrvLoop : Assignment → Option Nat → Option PyVal → Option PyVal
  | [], _, acc => acc
  | (key, value) :: rest, minimum, acc =>
    if value.length > 1 then
      if ltMin value.length minimum then mrvLoop rest (some value.length) (some key)
      else mrvLoop rest minimum acc
    else mrvLoop rest minimum acc

/-- `CSP.select_minimum_remaining_variable` (lines 150-160).  A falsy
`min_variable` (`None`, but also a falsy variable name such as `""`,
`0` or `False`) makes the function return `False`. -/
def select_minimum_remaining_variable (a : Assignment) : PyVal :=
  match mrvLoop a none none with
  | none => PyVal.bool false
  | some v => if pyTruthy v then v else PyVal.bool false

theorem mrvLoop_acc_or_mem {l : Assignment} {m : Option Nat} {acc : Option PyVal}
    {k : PyVal} (h : mrvLoop l m acc = some k) :
    acc = some k ∨ ∃ d, (k, d) ∈ l ∧ d.length > 1 := by
  induction l generalizing m acc with
  | nil => exact Or.inl h
  | cons p rest ih =>
      obtain ⟨key, value⟩ := p
      by_cases h₁ : value.length > 1
      · by_cases h₂ : ltMin value.length m = true
        · simp only [mrvLoop, if_pos h₁, h₂, if_true] at h
          rcases ih h with h' | ⟨d, hd, hdl⟩
          · obtain rfl : key = k := by simpa using h'
            exact Or.inr ⟨value, List.mem_cons_self _ _, h₁⟩
          · exact Or.inr ⟨d, List.mem_cons_of_mem _ hd, hdl⟩
        · simp only [mrvLoop, if_pos h₁, h₂, Bool.false_eq_true, if_false] at h
          rcases ih h with h' | ⟨d, hd, hdl⟩
          · exact Or.inl h'
          · exact Or.inr ⟨d, List.mem_cons_of_mem _ hd, hdl⟩
      · simp only [mrvLoop, if_neg h₁] at h
        rcases ih h with h' | ⟨d, hd, hdl⟩
        · exact Or.inl h'
        · exact Or.inr ⟨d, List.mem_cons_of_mem _ hd, hdl⟩

theorem mrvLoop_of_all_le {l : Assignment} (hall : ∀ p ∈ l, p.2.length ≤ 1)
    (m : Option Nat) (acc : Option PyVal) : mrvLoop l m acc = acc := by
  induction l generalizing m acc with
  | nil => rfl
  | cons p rest ih =>
      obtain ⟨key, value⟩ := p
      have h₁ : ¬ value.length > 1 := by
        have hle : value.length ≤ 1 := hall (key, value) (List.mem_cons_self _ _)
        omega
      simp only [mrvLoop, if_neg h₁]
      exact ih (fun q hq => hall q (List.mem_cons_of_mem _ hq)) m acc

theorem select_of_all_le {a : Assignment} (hall : ∀ p ∈ a, p.2.length ≤ 1) :
    select_minimum_remaining_variable a = PyVal.bool false := by
  unfold select_minimum_remaining_variable
  rw [mrvLoop_of_all_le hall none none]

theorem select_lookup_gt1 {a : Assignment} (ha : KeysOk a)
    (hv : pyTruthy (select_minimum_remaining_variable a) = true) :
    ∃ d, dlookup a (select_minimum_remaining_variable a) = some d ∧ d.length > 1 := by
  cases hm : mrvLoop a none none with
  | none =>
      have hsel : select_minimum_remaining_variable a = PyVal.bool false := by
        unfold select_minimum_remaining_variable
        rw [hm]
      rw [hsel] at hv
      simp [pyTruthy] at hv
  | some v =>
      by_cases ht : pyTruthy v = true
      · have hsel : select_minimum_remaining_variable a = v := by
          unfold select_minimum_remaining_variable
          rw [hm]
          simp [ht]
        rw [hsel] at hv ⊢
        rcases mrvLoop_acc_or_mem hm with h' | ⟨d, hd, hdl⟩
        · exact absurd h' (by simp)
        · exact ⟨d, dlookup_eq_of_mem_keysOk hd ha, hdl⟩
      · have hsel : select_minimum_remaining_variable a = PyVal.bool false := by
          unfold select_minimum_remaining_variable
          rw [hm]
          simp [ht]
        rw [hsel] at hv
        simp [pyTruthy] at hv

theorem countGT1_dset_singleton_lt {a : Assignment} {i : PyVal} {d : List PyVal}
    (h : dlookup a i = some d) (hlen : d.length > 1) (v : PyVal) :
    countGT1 (dset a i [v]) < countGT1 a := by
  induction a with
  | nil => simp [dlookup] at h
  | cons p rest ih =>
      obtain ⟨k₀, v₀⟩ := p
      by_cases h₀ : k₀ = i
      · simp only [dlookup, if_pos h₀, Option.some.injEq] at h
        subst h
        simp only [dset, if_pos h₀, countGT1, List.countP_cons]
        have h1 : (decide (([v] : List PyVal).length > 1)) = false := by simp
        have h2 : (decide (v₀.length > 1)) = true := by simpa using hlen
        rw [h1, h2]
        simp
      · simp only [dlookup, if_neg h₀] at h
        have := ih h
        simp only [dset, if_neg h₀, countGT1, List.countP_cons]
        simp only [countGT1] at this
        omega

/-- The assignment reaching the recursive `backtrack` call at line 127:
the chosen variable narrowed to `[v]` (line 125) and propagated by AC-3
over its neighbouring arcs (line 126). -/
def stepAssignment (cs : ConstraintMap) (a : Assignment) (var v : PyVal) : Assignment :=
  (inference cs (dset a var [v]) (get_all_neighboring_arcs cs var)).1

theorem step_keysOk (cs : ConstraintMap) {a : Assignment} (ha : KeysOk a)
    (hv : pyTruthy (select_minimum_remaining_variable a) = true) (v : PyVal) :
    KeysOk (stepAssignment cs a (select_minimum_remaining_variable a) v) := by
  obtain ⟨d, hd, -⟩ := select_lookup_gt1 ha hv
  have h1 : KeysOk (dset a (select_minimum_remaining_variable a) [v]) :=
    keysOk_dset_of_lookup _ _ _ ha (by simp [hd])
  exact shrinks_keysOk (inference_shrinks cs _ _) h1

theorem step_countGT1_lt (cs : ConstraintMap) {a : Assignment} (ha : KeysOk a)
    (hv : pyTruthy (select_minimum_remaining_variable a) = true) (v : PyVal) :
    countGT1 (stepAssignment cs a (select_minimum_remaining_variable a) v) < countGT1 a := by
  obtain ⟨d, hd, hdl⟩ := select_lookup_gt1 ha hv
  have h2 : countGT1 (dset a (select_minimum_remaining_variable a) [v]) < countGT1 a :=
    countGT1_dset_singleton_lt hd hdl v
  have h1 := shrinks_countGT1_le (inference_shrinks cs
    (dset a (select_minimum_remaining_variable a) [v])
    (get_all_neighboring_arcs cs (select_minimum_remaining_variable a)))
  unfold stepAssignment
  omega

/-- Truthiness of a value returned by `backtrack`: `False` is falsy and
a dict is truthy iff it is non-empty (`if result:` at line 128). -/
def btTruthy : Option Assignment → Bool
  | none => false
  | some a => !a.isEmpty

mutual

/-- `CSP.backtrack` (lines 95-131).  Returns the Python return value
(`False` or the assignment) together with the increments this call's
subtree contributes to `b_counter` and `f_counter`.  The extra argument
`ha` records that a Python dict never holds duplicate keys; it is what
makes the recursion well-founded. -/
def backtrack (cs : ConstraintMap) (a : Assignment) (ha : KeysOk a) :
    Option Assignment × Nat × Nat :=
  let var := select_minimum_remaining_variable a
  if hv : pyTruthy var = true then
    let r := tryValues cs a ha hv (dlookupD a var [])
    (r.1, r.2.1 + 1, r.2.2)
  else
    (some a, 1, 0)
termination_by (countGT1 a, (dlookupD a (select_minimum_remaining_variable a) []).length + 1)
decreasing_by
  · exact Prod.Lex.right _ (Nat.lt_succ_self _)

/-- The `for value in assignment[var]` loop of `backtrack` (lines
123-131): deep-copy, narrow `var` to `[value]`, propagate, recurse; on
exhaustion increment `f_counter` and return `False`. -/
def tryValues (cs : ConstraintMap) (a : Assignment) (ha : KeysOk a)
    (hv : pyTruthy (select_minimum_remaining_variable a) = true)
    (vals : List PyVal) : Option Assignment × Nat × Nat :=
  match vals with
  | [] => (none, 0, 1)
  | v :: rest =>
    let var := select_minimum_remaining_variable a
    let res := inference cs (dset a var [v]) (get_all_neighboring_arcs cs var)
    if res.2 then
      let r := backtrack cs res.1 (step_keysOk cs ha hv v)
      if btTruthy r.1 then r
      else
        let r2 := tryValues cs a ha hv rest
        (r2.1, r.2.1 + r2.2.1, r.2.2 + r2.2.2)
    else tryValues cs a ha hv rest
termination_by (countGT1 a, vals.length)
decreasing_by
  · exact Prod.Lex.left _ _ (step_countGT1_lt cs ha hv v)
  · exact Prod.Lex.right _ (Nat.lt_succ_self _)

end

/-- `CSP.backtracking_search` (lines 78-93): copy the domain store, run
AC-3 over all arcs — the Boolean result of that initial `inference` call
is discarded at line 90 although its domain prunings are kept — then run
`backtrack` on what remains.  Returns the result together with the final
values of `b_counter` and `f_counter`. -/
def backtracking_search (csp : CSP) (h : KeysOk csp.domains) :
    Option Assignment × Nat × Nat :=
  backtrack csp.constraints
    (inference csp.constraints csp.domains (get_all_arcs csp.constraints)).1
    (shrinks_keysOk (inference_shrinks csp.constraints csp.domains
      (get_all_arcs csp.constraints)) h)

/-- `int(s)` on the decimal strings produced by the queens builder. -/
def pyInt (s : String) : Int := s.toInt?.getD 0

/-- Component `k` of `s.split(",")`. -/
def splitPart (s : String) (k : Nat) : String := (s.splitOn (",")).getD k ""

/-- `queenCollision` (lines 237-242).  The second condition renders the
Python expression `abs(int(x0) - int(y0) == abs(int(x1) - int(y1)))`
faithfully: `==` binds tighter than the outer `abs` call, so `abs` is
applied to a Boolean, and the truthiness of `abs(True) = 1` /
`abs(False) = 0` is the comparison itself. -/
def queenCollision (x y : String) : Bool :=
  if splitPart x 0 == splitPart y 0 || splitPart x 1 == splitPart y 1 then true
  else if pyInt (splitPart x 0) - pyInt (splitPart y 0)
      == Int.ofNat (pyInt (splitPart x 1) - pyInt (splitPart y 1)).natAbs then true
  else false

/-- The string stored in a queens domain cell (they are all `str`s). -/
def strOf : PyVal → String
  | .str s => s
  | _ => ""

/-- `str(x) + "," + str(y)`, a queens board cell. -/
def cellStr (x y : Nat) : String := toString x ++ "," ++ toString y

/-- `create_queen_csp` (lines 224-235): one variable `"Qx"` per row
with domain all cells of row `x`; the constraint store is then written
directly (bypassing `add_constraint_one_way`) with every pair `(d, p)`
of a row cell and a board cell that does not collide. -/
def create_queen_csp (n : Nat) : CSP :=
  let possible := (List.range n).flatMap (fun x => (List.range n).map (fun y => cellStr x y))
  let csp := (List.range n).foldl (fun c x =>
    add_variable c (PyVal.str ("Q" ++ toString x))
      ((List.range n).map (fun i => PyVal.str (cellStr x i)))) {}
  csp.vars.foldl (fun c var =>
    c.vars.foldl (fun c2 var2 =>
      if var ≠ var2 then
        { c2 with constraints :=
            (dset c2.constraints var
              (dset (dlookupD c2.constraints var []) var2
                ((dlookupD c2.domains var []).flatMap (fun d =>
                  (possible.filter (fun p => !queenCollision (strOf d) p)).map
                    (fun p => (d, PyVal.str p)))))) }
      else c2) c) csp

/-! ### Concrete instances used to settle the claims -/

/-- Variable name `"a"`. -/
def va : PyVal := PyVal.str ("a")

/-- Variable name `"b"`. -/
def vb : PyVal := PyVal.str ("b")

/-- A two-variable CSP with symmetric constraints whose permitted-pair
lists are empty, so the initial AC-3 run empties the domain of `a`. -/
def badCSP : CSP :=
  { vars := [va, vb]
    domains := [(va, [PyVal.int 1]), (vb, [PyVal.int 1])]
    constraints := [(va, [(vb, [])]), (vb, [(va, [])])] }

/-- Constraints for the idempotence counterexample: `(a, b)` permits
nothing, `(b, a)` supports `3` by either value of `a`. -/
def idemCS : ConstraintMap :=
  [(va, [(vb, [])]),
   (vb, [(va, [(PyVal.int 3, PyVal.int 1), (PyVal.int 3, PyVal.int 2)])])]

/-- Initial assignment `{a: [1, 2], b: [3]}`. -/
def idemA0 : Assignment := [(va, [PyVal.int 1, PyVal.int 2]), (vb, [PyVal.int 3])]

/-- The assignment after one AC-3 run on `idemA0`: the unsupported `1`
was removed but the equally unsupported `2` was skipped. -/
def idemA1 : Assignment := [(va, [PyVal.int 2]), (vb, [PyVal.int 3])]

/-- The assignment after a second AC-3 run: `2` is removed as well,
emptying the domain of `a`. -/
def idemA2 : Assignment := [(va, []), (vb, [PyVal.int 3])]

/-- Constraints for the revise counterexample: `(a, b)` (and its
mirror) permit no value pair. -/
def reviseCS : ConstraintMap := [(va, [(vb, [])]), (vb, [(va, [])])]

/-- Assignment `{a: [1, 2], b: [3]}` for the revise counterexample. -/
def reviseA : Assignment := [(va, [PyVal.int 1, PyVal.int 2]), (vb, [PyVal.int 3])]

/-- A terminal assignment with an empty domain: `{a: [], b: [1]}`. -/
def termA : Assignment := [(va, []), (vb, [PyVal.int 1])]

/-- A CSP without the `(a, b)` constraint installed, used to exercise
`add_constraint_one_way` twice. -/
def aco0 : CSP :=
  { vars := [va, vb]
    domains := [(va, [PyVal.int 1, PyVal.int 2]), (vb, [PyVal.int 1])]
    constraints := [(va, []), (vb, [])] }

/-- The inequality predicate `lambda x, y: x != y`. -/
def pNe : PyVal → PyVal → Bool := fun x y => !(x == y)

/-- The equality predicate, a second filter for the same pair. -/
def pEq : PyVal → PyVal → Bool := fun x y => x == y

/-- A one-variable assignment with a two-value domain. -/
def c9A : Assignment := [(va, [PyVal.int 1, PyVal.int 2])]

/-- An assignment whose only undecided variable is named `""` (falsy). -/
def falsyA : Assignment := [(PyVal.str (""), [PyVal.int 1, PyVal.int 2])]

/-! ### The claims -/

/-- C1: the claim states that whenever `backtracking_search` returns a
non-failure result, every defined constraint `(i, j)` is satisfied by
the single remaining values of `i` and `j`.  The code violates it: on
`badCSP` the initial AC-3 run empties `domain(a)` and returns `False`,
but line 90 discards that Boolean, and `backtrack` then returns the
contradictory assignment `{a: [], b: [1]}` as a truthy result, although
the constraint `(a, b)` is defined (with empty permitted set) and `a`
has no remaining value at all. -/
theorem backtracking_search_returns_invalid_result :
    backtracking_search badCSP (by decide) =
      (some [(va, []), (vb, [PyVal.int 1])], 1, 0) ∧
    btTruthy (some [(va, []), (vb, [PyVal.int 1])]) = true ∧
    dlookup (dlookupD badCSP.constraints va []) vb = some [] := by
  refine ⟨?_, by decide, by decide⟩
  simp [backtracking_search, backtrack, tryValues, inference, revise, reviseLoop,
    supported, pyRemove, dset, dlookup, dlookupD, enqueueArcs,
    get_all_neighboring_arcs, get_all_arcs, select_minimum_remaining_variable,
    mrvLoop, ltMin, pyTruthy, btTruthy, badCSP, va, vb]

/-- C2: the claim states that after a revision of `domain(i)` every
neighbouring arc `(k, i)` EXCEPT `(j, i)` is appended.  The code's test
`not neighbor == j` compares the 2-tuple `neighbor` with the variable
`j`, which is never equal, so every neighbouring arc including `(j, i)`
is appended: with `constraints[a] = {b: []}` the appended list for the
popped arc `(a, b)` is exactly `[(b, a)]`, the arc the claim says is
excluded. -/
theorem enqueueArcs_keeps_triggering_arc :
    enqueueArcs [(va, [(vb, [])])] va vb = [(vb, va)] ∧
    (vb, va) ∈ enqueueArcs [(va, [(vb, [])])] va vb := by
  constructor <;> decide

/-- C3: the claim states one `revise` call removes all unsupported
values.  The code removes from `assignment[i]` while iterating over it,
so after deleting the unsupported `1` of `{a: [1, 2]}` the loop index
skips the equally unsupported `2`: the call returns `{a: [2]}` with
`revised = True`, and the surviving `2` has no support in `domain(b)`
under the empty permitted set of `(a, b)`. -/
theorem revise_skips_unsupported_value :
    revise reviseCS reviseA va vb =
      ([(va, [PyVal.int 2]), (vb, [PyVal.int 3])], true) ∧
    supported (dlookupD (dlookupD reviseCS va []) vb [])
      (dlookupD reviseA vb []) (PyVal.int 2) = false := by
  refine ⟨?_, by decide⟩
  simp [revise, reviseLoop, supported, pyRemove, dset, dlookup, dlookupD,
    reviseCS, reviseA, va, vb]

/-- C4: when no domain of the assignment has more than one value —
including when some domain is empty — `backtrack` returns the
assignment itself as a terminal success (with one `b_counter`
increment and none for `f_counter`): MRV finds no variable, returns
`False`, and `backtrack` concludes success with no emptiness check. -/
theorem backtrack_terminal_success (cs : ConstraintMap) (a : Assignment)
    (ha : KeysOk a) (hall : ∀ p ∈ a, p.2.length ≤ 1) :
    backtrack cs a ha = (some a, 1, 0) := by
  rw [backtrack]
  simp [select_of_all_le hall, pyTruthy]

/-- C4 witness: the assignment `{a: [], b: [1]}` with an empty domain
is returned exactly as if it were a solution. -/
theorem backtrack_terminal_success_witness :
    KeysOk termA ∧ (∀ p ∈ termA, p.2.length ≤ 1) ∧
    backtrack [] termA (by decide) = (some termA, 1, 0) :=
  ⟨by decide, by decide, backtrack_terminal_success [] termA (by decide) (by decide)⟩

/-- C5: the claim states AC-3 is idempotent.  The code is not: on
`idemA0` with queue `[(a, b)]` the first run succeeds but leaves the
unsupported value `2` in `domain(a)` (skipped by the revise bug, and
the arc `(a, b)` is never re-examined); the second run on the result
with an equal queue removes `2` — emptying `domain(a)` and failing —
so the second run does change a domain. -/
theorem inference_not_idempotent :
    inference idemCS idemA0 [(va, vb)] = (idemA1, true) ∧
    inference idemCS idemA1 [(va, vb)] = (idemA2, false) ∧
    dlookupD idemA2 va [] ≠ dlookupD idemA1 va [] := by
  refine ⟨?_, ?_, by decide⟩ <;>
  simp [inference, revise, reviseLoop, supported, pyRemove, dset, dlookup,
    dlookupD, enqueueArcs, get_all_neighboring_arcs, idemCS, idemA0, idemA1,
    idemA2, va, vb]

/-- C6 counterexample: the claim states `b_counter` is 0 after solving
the 1-queens CSP; in fact the single top-level `backtrack` call has
already incremented it to 1. -/
theorem queens1_counter_not_zero :
    ¬ (backtracking_search (create_queen_csp 1) (by decide)).2.1 = 0 := by
  show ¬ (backtracking_search
    { vars := [PyVal.str ("Q0")]
      domains := [(PyVal.str ("Q0"), [PyVal.str ("0,0")])]
      constraints := [(PyVal.str ("Q0"), [])] } (by decide)).2.1 = 0
  simp [backtracking_search, backtrack, tryValues, inference, revise, reviseLoop,
    supported, pyRemove, dset, dlookup, dlookupD, enqueueArcs,
    get_all_neighboring_arcs, get_all_arcs, select_minimum_remaining_variable,
    mrvLoop, ltMin, pyTruthy, btTruthy]

/-- C6 (amended): `backtracking_search` on `create_queen_csp 1` returns
the trivial single-queen placement `{Q0: ["0,0"]}` immediately, with
`b_counter = 1` (exactly the one initial call, no recursion and no
backtracking) and `f_counter = 0`. -/
theorem queens1_solution :
    backtracking_search (create_queen_csp 1) (by decide) =
      (some [(PyVal.str ("Q0"), [PyVal.str ("0,0")])], 1, 0) := by
  show backtracking_search
    { vars := [PyVal.str ("Q0")]
      domains := [(PyVal.str ("Q0"), [PyVal.str ("0,0")])]
      constraints := [(PyVal.str ("Q0"), [])] } (by decide) = _
  simp [backtracking_search, backtrack, tryValues, inference, revise, reviseLoop,
    supported, pyRemove, dset, dlookup, dlookupD, enqueueArcs,
    get_all_neighboring_arcs, get_all_arcs, select_minimum_remaining_variable,
    mrvLoop, ltMin, pyTruthy, btTruthy]

/-- A second `add_constraint_one_way` call on a pair that is already
stored filters the stored list, not the full product. -/
theorem add_constraint_one_way_existing (csp : CSP) (i j : PyVal)
    (q : PyVal → PyVal → Bool) {L : ConPairs}
    (hex : dlookup (dlookupD csp.constraints i []) j = some L) :
    dlookup (dlookupD (add_constraint_one_way csp i j q).constraints i []) j =
      some (L.filter (fun vp => q vp.1 vp.2)) := by
  have hex' : dlookup ((dlookup csp.constraints i).getD []) j = some L := by
    simpa [dlookupD] using hex
  simp only [add_constraint_one_way, dlookupD, hex', Option.isSome_some, if_true,
    dlookup_dset_self, Option.getD_some]

/-- C7: a first `add_constraint_one_way` call on a fresh pair `(i, j)`
stores the Cartesian product of the current domains filtered by `p`; a
second call for the same pair with a different predicate `q` re-filters
the stored list (intersection by reapplication), not the full product,
so installation order matters. -/
theorem add_constraint_one_way_refilters (csp : CSP) (i j : PyVal)
    (p q : PyVal → PyVal → Bool)
    (hfresh : dlookup (dlookupD csp.constraints i []) j = none) :
    dlookup (dlookupD (add_constraint_one_way csp i j p).constraints i []) j =
      some ((get_all_possible_pairs (dlookupD csp.domains i [])
        (dlookupD csp.domains j [])).filter (fun vp => p vp.1 vp.2)) ∧
    dlookup (dlookupD
        (add_constraint_one_way (add_constraint_one_way csp i j p) i j q).constraints i []) j =
      some (((get_all_possible_pairs (dlookupD csp.domains i [])
        (dlookupD csp.domains j [])).filter (fun vp => p vp.1 vp.2)).filter
          (fun vp => q vp.1 vp.2)) := by
  have hfresh' : dlookup ((dlookup csp.constraints i).getD []) j = none := by
    simpa [dlookupD] using hfresh
  have h1 : dlookup (dlookupD (add_constraint_one_way csp i j p).constraints i []) j =
      some ((get_all_possible_pairs (dlookupD csp.domains i [])
        (dlookupD csp.domains j [])).filter (fun vp => p vp.1 vp.2)) := by
    simp only [add_constraint_one_way, dlookupD, hfresh', Option.isSome_none,
      Bool.false_eq_true, if_false, dlookup_dset_self, Option.getD_some]
  exact ⟨h1, add_constraint_one_way_existing (add_constraint_one_way csp i j p) i j q h1⟩

/-- C7 witness: a concrete fresh pair filtered by two different
predicates in sequence. -/
theorem add_constraint_one_way_refilters_witness :
    dlookup (dlookupD aco0.constraints va []) vb = none ∧
    (dlookup (dlookupD (add_constraint_one_way aco0 va vb pNe).constraints va []) vb =
      some ((get_all_possible_pairs (dlookupD aco0.domains va [])
        (dlookupD aco0.domains vb [])).filter (fun vp => pNe vp.1 vp.2)) ∧
    dlookup (dlookupD
        (add_constraint_one_way (add_constraint_one_way aco0 va vb pNe) va vb pEq).constraints va []) vb =
      some (((get_all_possible_pairs (dlookupD aco0.domains va [])
        (dlookupD aco0.domains vb [])).filter (fun vp => pNe vp.1 vp.2)).filter
          (fun vp => pEq vp.1 vp.2))) :=
  ⟨by decide, add_constraint_one_way_refilters aco0 va vb pNe pEq (by decide)⟩

/-- C8: propagation is monotone.  One `revise` call and one
`inference` (AC-3) call only ever remove values: for every variable
`v`, the domain of `v` afterwards is a sublist (in particular a subset)
of the domain before, so the property holds across any sequence of such
calls. -/
theorem propagation_monotone (cs : ConstraintMap) (a : Assignment) (v : PyVal) :
    (∀ i j, (dlookupD (revise cs a i j).1 v []).Sublist (dlookupD a v [])) ∧
    (∀ queue, (dlookupD (inference cs a queue).1 v []).Sublist (dlookupD a v [])) :=
  ⟨fun i j => shrinks_lookupD (revise_shrinks cs a i j) v,
   fun queue => shrinks_lookupD (inference_shrinks cs a queue) v⟩

/-- C9: the measure justifying termination of `backtrack`: whenever MRV
selects a (truthy) variable, narrowing it to a single value and running
AC-3 on the neighbouring arcs strictly decreases the number of
variables whose domain has more than one value, for every choice of
value; `backtrack` is accordingly defined by well-founded recursion on
that measure. -/
theorem backtrack_recursion_measure_decreases (cs : ConstraintMap) (a : Assignment)
    (ha : KeysOk a) (hv : pyTruthy (select_minimum_remaining_variable a) = true)
    (v : PyVal) :
    countGT1 (inference cs (dset a (select_minimum_remaining_variable a) [v])
      (get_all_neighboring_arcs cs (select_minimum_remaining_variable a))).1 <
      countGT1 a :=
  step_countGT1_lt cs ha hv v

/-- C9 witness: the measure decreases on a concrete recursive step. -/
theorem backtrack_recursion_measure_decreases_witness :
    KeysOk c9A ∧ pyTruthy (select_minimum_remaining_variable c9A) = true ∧
    countGT1 (inference [] (dset c9A (select_minimum_remaining_variable c9A)
      [PyVal.int 1]) (get_all_neighboring_arcs [] (select_minimum_remaining_variable c9A))).1 <
      countGT1 c9A :=
  ⟨by decide, by decide,
   backtrack_recursion_measure_decreases [] c9A (by decide) (by decide) (PyVal.int 1)⟩

/-- C10: if the scan of `select_minimum_remaining_variable` ends with a
falsy `min_variable` (a variable actually having more than one value
left but named `""`, `0` or `False`), the function returns `False` as
though no unassigned variable remained, and `backtrack` consequently
returns the partial assignment as a success. -/
theorem falsy_variable_treated_as_finished (cs : ConstraintMap) (a : Assignment)
    (ha : KeysOk a) (v : PyVal) (hm : mrvLoop a none none = some v)
    (hfalsy : pyTruthy v = false) :
    select_minimum_remaining_variable a = PyVal.bool false ∧
    backtrack cs a ha = (some a, 1, 0) ∧
    ∃ d, (v, d) ∈ a ∧ d.length > 1 := by
  have hsel : select_minimum_remaining_variable a = PyVal.bool false := by
    unfold select_minimum_remaining_variable
    rw [hm]
    simp [hfalsy]
  refine ⟨hsel, ?_, ?_⟩
  · rw [backtrack]
    simp [hsel, pyTruthy]
  · rcases mrvLoop_acc_or_mem hm with h | h
    · exact absurd h (by simp)
    · exact h

/-- C10 witness: a variable named `""` with two values left makes MRV
report `False` and `backtrack` return the unfinished assignment. -/
theorem falsy_variable_treated_as_finished_witness :
    mrvLoop falsyA none none = some (PyVal.str ("")) ∧
    pyTruthy (PyVal.str ("")) = false ∧
    (select_minimum_remaining_variable falsyA = PyVal.bool false ∧
     backtrack [] falsyA (by decide) = (some falsyA, 1, 0) ∧
     ∃ d, (PyVal.str (""), d) ∈ falsyA ∧ d.length > 1) :=
  ⟨by decide, by decide,
   falsy_variable_treated_as_finished [] falsyA (by decide) (PyVal.str (""))
     (by decide) (by decide)⟩

end Csp
